import Mathlib

/-!
Verification development for the envmerge repository.

Shallow embedding of src/internal/resolver/resolver.go (package resolver).
Go strings are modelled as Lean String values; where the Go code indexes raw
bytes, the functions below operate on the character list of the string (for
the ASCII characters the code inspects, byte-level and character-level
behaviour coincide, since no UTF-8 continuation byte equals an ASCII byte).
File contents are modelled as the list of lines the bufio.Scanner yields.
-/

namespace EnvMerge

/-- Layer (resolver.go lines 15-26): the source layer of an environment
variable.  The seven constants of the Go enumeration. -/
inductive Layer where
  | envExample
  | env
  | envLocal
  | envOther
  | composeEnvFile
  | composeInline
  | osEnv
deriving DecidableEq, Repr

/-- Layer.Precedence (resolver.go lines 49-69): precedence order, higher wins.
Only the seven declared constants are ever constructed by the program, so the
Go default branch (-1) is unreachable and the result is a Nat. -/
def Layer.precedence : Layer → Nat
  | .envExample => 0
  | .env => 1
  | .envLocal => 2
  | .envOther => 3
  | .composeEnvFile => 4
  | .composeInline => 5
  | .osEnv => 6

/-- Source (resolver.go lines 71-79): where a variable value came from. -/
structure Source where
  layer : Layer
  file : String
  line : Nat
  service : String
  value : String
  isInline : Bool
deriving DecidableEq, Repr

/-- The Go zero value of Source (Layer 0 = LayerEnvExample, empty strings,
line 0, IsInline false). -/
instance : Inhabited Source := ⟨⟨.envExample, "", 0, "", "", false⟩⟩

/-- Variable (resolver.go lines 81-89): a resolved environment variable. -/
structure Variable where
  name : String
  finalValue : String
  finalFrom : Source
  chain : List Source
  overridden : Bool
  conflicts : List String
deriving DecidableEq, Repr

/-- Resolution (resolver.go lines 91-100).  The Go ByName map of pointers is
modelled as an association list (the vars field models the Go Variables slice, renamed because the word variables is a Lean command keyword); the pointer sharing between Variables and
ByName is modelled by updating both fields in the passes that mutate
variables in place. -/
structure Resolution where
  path : String
  vars : List Variable
  byName : List (String × Variable)
  envFiles : List String
  composeFiles : List String
  warnings : List String
  undefined : List String
deriving Repr

/-- Options (resolver.go lines 102-108). -/
structure Options where
  includeOSEnv : Bool := false
  serviceName : String := ""
  strictMode : Bool := false
  compareWith : String := ""
deriving Repr

/-! ### String helpers used by the parser -/

/-- unicode.IsSpace restricted to the code points Go's strings.TrimSpace
strips for ASCII-Latin1 input: tab, newline, vertical tab, form feed,
carriage return, space, NEL, no-break space. -/
def goIsSpace (c : Char) : Bool :=
  c.toNat = 9 || c.toNat = 10 || c.toNat = 11 || c.toNat = 12 ||
  c.toNat = 13 || c.toNat = 32 || c.toNat = 133 || c.toNat = 160

/-- strings.TrimSpace on the character list: drop whitespace from both ends. -/
def trimChars (l : List Char) : List Char :=
  ((l.dropWhile goIsSpace).reverse.dropWhile goIsSpace).reverse

/-- strings.TrimPrefix(line, "export ") (resolver.go line 316). -/
def stripExport (l : List Char) : List Char :=
  if "export ".data.isPrefixOf l then l.drop "export ".data.length else l

/-- strings.SplitN(s, "=", 2) (resolver.go lines 320, 411): none when the
line has no equals sign (SplitN returns a single part), otherwise the text
before the first equals sign and the text after it. -/
def splitEqChars : List Char → Option (List Char × List Char)
  | [] => none
  | c :: rest =>
    if c = '=' then some ([], rest)
    else (splitEqChars rest).map (fun p => (c :: p.1, p.2))

/-- unquote (resolver.go lines 478-486): if the value is at least two bytes
long and starts and ends with the same quote character (double or single),
strip that one outer pair; otherwise return it unchanged. -/
def unquote (l : List Char) : List Char :=
  if 2 ≤ l.length ∧
      ((l.head? = some '"' ∧ l.getLast? = some '"') ∨
       (l.head? = some (Char.ofNat 39) ∧ l.getLast? = some (Char.ofNat 39))) then
    (l.drop 1).dropLast
  else l

/-- unquote on Strings. -/
def unquoteStr (s : String) : String := ⟨unquote s.data⟩

/-! ### Plain env-file parsing (resolver.go parseEnvFile, lines 296-342) -/

/-- The body of the scanner loop of parseEnvFile for one line: skip blank
lines and whole-line comments, strip a leading export token, split on the
first equals sign, trim key and value, unquote the value, skip empty keys,
and otherwise emit the observation that addSource records. -/
def parseEnvLine (layer : Layer) (path : String) (lineNum : Nat) (raw : String) :
    Option (String × Source) :=
  let line := trimChars raw.data
  if line = [] ∨ line.head? = some '#' then none
  else
    let line := trimChars (stripExport line)
    match splitEqChars line with
    | none => none
    | some (k, v) =>
      let key := trimChars k
      let value := unquote (trimChars v)
      if key = [] then none
      else some (⟨key⟩, ⟨layer, path, lineNum, "", ⟨value⟩, false⟩)

/-- parseEnvFile (resolver.go lines 296-342) on the list of lines of the
file, with 1-indexed line numbers. -/
def parseEnvFile (layer : Layer) (path : String) (lines : List String) :
    List (String × Source) :=
  (lines.enumFrom 1).filterMap (fun p => parseEnvLine layer path p.1 p.2)

/-! ### Manifest env_file reference parsing
(resolver.go parseEnvFileRef, lines 377-429) -/

/-- The body of the scanner loop of parseEnvFileRef for one line of a
referenced env file: like parseEnvLine but tagged with the compose env_file
layer and the owning service, and with no export stripping and no empty-key
skipping (the Go loop at lines 404-426 has neither step). -/
def parseRefLine (path serviceName : String) (lineNum : Nat) (raw : String) :
    Option (String × Source) :=
  let line := trimChars raw.data
  if line = [] ∨ line.head? = some '#' then none
  else
    match splitEqChars line with
    | none => none
    | some (k, v) =>
      let key := trimChars k
      let value := unquote (trimChars v)
      some (⟨key⟩, ⟨.composeEnvFile, path, lineNum, serviceName, ⟨value⟩, false⟩)

/-- The per-file part of parseEnvFileRef: parse the lines of one referenced
env file that exists and could be opened. -/
def parseRefFile (path serviceName : String) (lines : List String) :
    List (String × Source) :=
  (lines.enumFrom 1).filterMap (fun p => parseRefLine path serviceName p.1 p.2)

/-! ### Manifest (compose file) model

The YAML side of parseComposeFile is external input: the yaml.Unmarshal call
either fails (malformed document) or yields a services map.  A service's
environment field is a dynamically shaped value (mapping or list), its
env_file field a single path or list of paths.  The structures below model
the already-unmarshalled document; the env_file paths are paired with the
content of the referenced file (none when os.Stat or os.Open fails, in which
case resolver.go lines 394-399 silently skip the file). -/

/-- The two accepted shapes of a service's environment field
(resolver.go parseInlineEnv, lines 431-467).  For the mapping shape the YAML
scalar has already been rendered to text the way fmt.Sprintf renders it;
none models a YAML null value, which Go turns into the empty string. -/
inductive InlineEnv where
  | mapShape (entries : List (String × Option String))
  | listShape (items : List String)
  | absent
deriving Repr

/-- One entry of the services map of a compose document, with env_file
references already flattened (string or list-of-strings shape) and resolved
against the manifest's directory. -/
structure ComposeService where
  name : String
  envFileRefs : List (String × Option (List String))
  inlineEnv : InlineEnv
deriving Repr

/-- parseInlineEnv (resolver.go lines 431-467): the mapping shape emits one
inline observation per entry (keys and values taken verbatim, null value as
empty string); the list shape splits each item on the first equals sign, a
bare name yielding an empty value.  List items are never trimmed or
unquoted. -/
def parseInlineEnv (composePath serviceName : String) : InlineEnv → List (String × Source)
  | .mapShape entries =>
    entries.map (fun p =>
      (p.1, ⟨.composeInline, composePath, 0, serviceName, p.2.getD "", true⟩))
  | .listShape items =>
    items.map (fun s =>
      match splitEqChars s.data with
      | some (k, v) => (⟨k⟩, ⟨.composeInline, composePath, 0, serviceName, ⟨v⟩, true⟩)
      | none => (s, ⟨.composeInline, composePath, 0, serviceName, "", true⟩))
  | .absent => []

/-- parseEnvFileRef (resolver.go lines 377-429) for one service: parse each
referenced file that exists and opens, skipping the others silently. -/
def parseEnvFileRefs (serviceName : String)
    (refs : List (String × Option (List String))) : List (String × Source) :=
  refs.flatMap (fun r =>
    match r.2 with
    | some lines => parseRefFile r.1 serviceName lines
    | none => [])

/-- parseComposeFile (resolver.go lines 351-375) on an unmarshalled document:
for each service, env_file references first, then the inline environment.
The order of the services list models the Go map iteration order. -/
def parseComposeFile (path : String) (services : List ComposeService) :
    List (String × Source) :=
  services.flatMap (fun svc =>
    parseEnvFileRefs svc.name svc.envFileRefs ++
    parseInlineEnv path svc.name svc.inlineEnv)

/-! ### Ingestion (ResolveWithOptions steps 1-2, resolver.go lines 123-174) -/

/-- One discovered env-style artifact: its warning label (the pattern or file
name used in the warning message), its path, its layer, and either its lines
or the error that opening or scanning it produced. -/
structure EnvArtifact where
  label : String
  path : String
  layer : Layer
  content : Except String (List String)
deriving Repr

/-- One discovered compose-style artifact: its warning label, its path, and
either its unmarshalled services or the read or unmarshal error. -/
structure ComposeArtifact where
  label : String
  path : String
  content : Except String (List ComposeService)
deriving Repr

/-- The directory contents handed to a resolve call: the env artifacts in
discovery order (the fixed patterns .env.example, .env, .env.local first,
then the other .env.* files in directory-listing order) and the compose
artifacts in the fixed pattern order.  Only files whose os.Stat succeeded
are listed. -/
structure FS where
  path : String
  envArtifacts : List EnvArtifact
  composeArtifacts : List ComposeArtifact

/-- The observations contributed by one env artifact (none when it failed). -/
def envArtifactObs (a : EnvArtifact) : List (String × Source) :=
  match a.content with
  | .ok lines => parseEnvFile a.layer a.path lines
  | .error _ => []

/-- The warning contributed by one env artifact (resolver.go lines 137-139
and 152-154), if it failed. -/
def envArtifactWarn (a : EnvArtifact) : Option String :=
  match a.content with
  | .ok _ => none
  | .error e => some ("Error parsing " ++ a.label ++ ": " ++ e)

/-- The observations contributed by one compose artifact. -/
def composeArtifactObs (a : ComposeArtifact) : List (String × Source) :=
  match a.content with
  | .ok services => parseComposeFile a.path services
  | .error _ => []

/-- The warning contributed by one compose artifact (resolver.go
lines 170-172), if it failed. -/
def composeArtifactWarn (a : ComposeArtifact) : Option String :=
  match a.content with
  | .ok _ => none
  | .error e => some ("Error parsing " ++ a.label ++ ": " ++ e)

/-- Steps 1-2 of ResolveWithOptions: every artifact is processed in
discovery order; a failing artifact contributes a warning instead of
observations and never stops the scan.  The observation list gathers the
addSource calls in program order, the warning list the appended warnings. -/
def ingest (fs : FS) : List (String × Source) × List String :=
  (fs.envArtifacts.flatMap envArtifactObs ++
     fs.composeArtifacts.flatMap composeArtifactObs,
   fs.envArtifacts.filterMap envArtifactWarn ++
     fs.composeArtifacts.filterMap composeArtifactWarn)

/-! ### Finalization (ResolveWithOptions step 3, resolver.go lines 176-211) -/

/-- The chain addSource (resolver.go lines 469-476) builds for one name:
all observations for that name, in arrival order. -/
def chainOf (obs : List (String × Source)) (name : String) : List Source :=
  (obs.filter (fun p => p.1 = name)).map (fun p => p.2)

/-- The comparison of the chain sort (resolver.go line 180, as the
non-strict order a sorted output satisfies). -/
def chainLE (s t : Source) : Prop :=
  s.layer.precedence ≤ t.layer.precedence

instance : DecidableRel chainLE := fun s t => Nat.decLe _ _

instance : IsTotal Source chainLE := ⟨fun s t => Nat.le_total _ _⟩

instance : IsTrans Source chainLE := ⟨fun _ _ _ => Nat.le_trans⟩

/-- The sort of resolver.go lines 179-181: order the chain by ascending
layer precedence.  Go's sort.Slice runs its insertion sort on slices of
fewer than 13 elements, which is the stable sort modelled here; see the C4
analysis for longer chains. -/
def sortChain (chain : List Source) : List Source :=
  chain.insertionSort chainLE

/-- The distinct non-empty values of a chain (the values map built at
resolver.go lines 190-195), in one canonical enumeration order. -/
def distinctNonEmptyValues (chain : List Source) : List String :=
  ((chain.map (fun s => s.value)).filter (fun v => v ≠ "")).dedup

/-- The finalization of one Variable (resolver.go lines 177-205),
parameterized by the enumeration order of the distinct-value map of
lines 196-203: Go ranges over a hash map there, so the order of the
Conflicts slice is whatever order the runtime enumerates the map in.
valOrder is that enumeration. -/
def finalizeVarWith (name : String) (chain : List Source) (valOrder : List String) :
    Variable :=
  let sorted := sortChain chain
  let fin? := sorted.getLast?
  let finalValue := ((fin?.map (fun s => s.value)).getD "")
  { name := name
    finalValue := finalValue
    finalFrom := fin?.getD default
    chain := sorted
    overridden := decide (1 < valOrder.length)
    conflicts :=
      if 1 < valOrder.length then valOrder.filter (fun v => v ≠ finalValue) else [] }

/-- Finalization with the canonical value enumeration order. -/
def finalizeVar (name : String) (chain : List Source) : Variable :=
  finalizeVarWith name chain (distinctNonEmptyValues chain)

/-- Lexicographic string sort (sort.Slice by Name at resolver.go lines
208-211, sort.Strings in Compare): on lists with no duplicates every
correct sort produces this result, so a stable sort models it. -/
def sortStrings (l : List String) : List String :=
  l.insertionSort (fun a b => a ≤ b)

/-- Step 3 of ResolveWithOptions (resolver.go lines 176-211): finalize every
tracked name and emit the Variables list sorted by name.  Go iterates the
ByName map in arbitrary order and sorts afterwards; names are unique, so the
result is the sort of the name set and the iteration order is immaterial. -/
def buildResolution (fs : FS) (obs : List (String × Source)) (warnings : List String) :
    Resolution :=
  let names := ((obs.map (fun p => p.1)).dedup)
  { path := fs.path
    vars := (sortStrings names).map (fun n => finalizeVar n (chainOf obs n))
    byName := names.map (fun n => (n, finalizeVar n (chainOf obs n)))
    envFiles := fs.envArtifacts.map (fun a => a.path)
    composeFiles := fs.composeArtifacts.map (fun a => a.path)
    warnings := warnings
    undefined := [] }

/-! ### OS environment merge (resolver.go lines 213-235) -/

/-- The observation recorded for an ambient environment value. -/
def osSource (value : String) : Source :=
  ⟨.osEnv, "environment", 0, "", value, false⟩

/-- The OS-environment pass applied to one variable: for every ambient pair
whose key equals the variable's name, append the ambient observation to its
chain, overwrite the final value and source, and set Overridden — resolver.go
lines 222-232.  env is os.Environ() already split into key/value pairs (Go
skips entries without an equals sign; such entries do not occur). -/
def mergeOSEnvVar (env : List (String × String)) (v : Variable) : Variable :=
  env.foldl
    (fun v p =>
      if p.1 = v.name then
        { v with
          chain := v.chain ++ [osSource p.2]
          finalValue := p.2
          finalFrom := osSource p.2
          overridden := true }
      else v)
    v

/-- The OS-environment pass on the Resolution: ambient pairs are merged only
into variables that already exist in ByName; the Variables slice and the
ByName map share pointers in Go, so both fields are updated. -/
def mergeOSEnv (env : List (String × String)) (r : Resolution) : Resolution :=
  { r with
    vars := r.vars.map (mergeOSEnvVar env)
    byName := r.byName.map (fun p => (p.1, mergeOSEnvVar env p.2)) }

/-! ### Service filter and undefined detection
(resolver.go lines 254-294) -/

/-- The per-variable test of filterToService (resolver.go lines 259-266):
the variable has an observation scoped to the requested service or unscoped. -/
def usedByService (serviceName : String) (v : Variable) : Bool :=
  v.chain.any (fun src => src.service = serviceName || src.service = "")

/-- filterToService (resolver.go lines 254-274): keep only the matching
variables in the Variables slice; nothing else is touched. -/
def filterToService (serviceName : String) (r : Resolution) : Resolution :=
  { r with vars := r.vars.filter (usedByService serviceName) }

/-- The per-variable test of findUndefinedVars (resolver.go lines 279-292):
empty final value and no observation with a non-empty value. -/
def isUndefinedVar (v : Variable) : Bool :=
  decide (v.finalValue = "" ∧ ∀ s ∈ v.chain, s.value = "")

/-- findUndefinedVars (resolver.go lines 276-294): append the names of the
undefined variables of the Variables slice to the Undefined list. -/
def findUndefinedVars (r : Resolution) : Resolution :=
  { r with undefined := r.undefined ++ (r.vars.filter isUndefinedVar).map (fun v => v.name) }

/-- The strict-mode error message of resolver.go lines 246-247. -/
def strictErrMsg (undefined : List String) : String :=
  "strict mode: " ++ toString undefined.length ++ " undefined variable(s): " ++
    String.intercalate ", " undefined

/-- ResolveWithOptions before the strict-mode check (resolver.go lines
116-240): ingest all artifacts, build the sorted variable list, optionally
merge the ambient environment, optionally filter to a service. -/
def preStrict (fs : FS) (osEnv : List (String × String)) (opts : Options) : Resolution :=
  let ingested := ingest fs
  let r0 := buildResolution fs ingested.1 ingested.2
  let r1 := if opts.includeOSEnv then mergeOSEnv osEnv r0 else r0
  if opts.serviceName ≠ "" then filterToService opts.serviceName r1 else r1

/-- ResolveWithOptions (resolver.go lines 116-252): the pre-strict pipeline,
then in strict mode fail iff undefined variables remain, returning the
partial Resolution alongside the error. -/
def resolveWithOptions (fs : FS) (osEnv : List (String × String)) (opts : Options) :
    Resolution × Option String :=
  let r2 := preStrict fs osEnv opts
  if opts.strictMode then
    let r3 := findUndefinedVars r2
    if r3.undefined ≠ [] then (r3, some (strictErrMsg r3.undefined)) else (r3, none)
  else (r2, none)

/-- Resolve (resolver.go lines 110-113). -/
def resolve (fs : FS) (osEnv : List (String × String)) : Resolution × Option String :=
  resolveWithOptions fs osEnv {}

/-! ### Compare (resolver.go lines 488-556) -/

/-- DiffVar (resolver.go lines 496-501). -/
structure DiffVar where
  name : String
  firstValue : String
  secondValue : String
deriving DecidableEq, Repr

/-- CompareResult (resolver.go lines 488-494). -/
structure CompareResult where
  onlyInFirst : List String
  onlyInSecond : List String
  different : List DiffVar
  same : List String
deriving DecidableEq, Repr

/-- The name-to-final-value map built from a Variables slice (resolver.go
lines 507-516), as an association list in insertion order; a later entry for
the same key overwrites an earlier one. -/
def finalMap (vs : List Variable) : List (String × String) :=
  vs.map (fun v => (v.name, v.finalValue))

/-- Go map lookup on the association list: the latest binding wins. -/
def mapLookup (m : List (String × String)) (k : String) : Option String :=
  (m.reverse.find? (fun p => p.1 == k)).map (fun p => p.2)

/-- The key set of the Go map, one occurrence per key.  Go enumerates map
keys in arbitrary order; every use below sorts afterwards, so the canonical
enumeration chosen by dedup is immaterial. -/
def mapKeys (m : List (String × String)) : List String :=
  (m.map (fun p => p.1)).dedup

/-- The by-name comparison of the DiffVar sort (resolver.go line 552). -/
def diffLE (a b : DiffVar) : Prop := a.name ≤ b.name

instance : DecidableRel diffLE := fun a b => inferInstanceAs (Decidable (a.name ≤ b.name))

instance : IsTotal DiffVar diffLE := ⟨fun a b => le_total a.name b.name⟩

instance : IsTrans DiffVar diffLE := ⟨fun _ _ _ => le_trans⟩

/-- Sort a DiffVar list by name (sort.Slice at resolver.go lines 551-553);
the names are pairwise distinct there, so every correct sort produces this
result. -/
def sortDiffs (l : List DiffVar) : List DiffVar :=
  l.insertionSort diffLE

/-- The body of the different-values loop (resolver.go lines 533-545) for
one name: when the name is bound in both maps and the values differ, the
DiffVar carrying both values. -/
def diffEntry (firstVars secondVars : List (String × String)) (n : String) :
    Option DiffVar :=
  match mapLookup firstVars n, mapLookup secondVars n with
  | some v1, some v2 => if v1 ≠ v2 then some ⟨n, v1, v2⟩ else none
  | _, _ => none

/-- The test of the same-values branch (resolver.go lines 541-543). -/
def sameTest (firstVars secondVars : List (String × String)) (n : String) : Bool :=
  match mapLookup firstVars n, mapLookup secondVars n with
  | some v1, some v2 => v1 == v2
  | _, _ => false

/-- Compare (resolver.go lines 503-556): build the two final-value maps,
split the names into only-in-first, only-in-second, different and same, and
sort every result list by name. -/
def Compare (first second : Resolution) : CompareResult :=
  let firstVars := finalMap first.vars
  let secondVars := finalMap second.vars
  { onlyInFirst :=
      sortStrings ((mapKeys firstVars).filter (fun n => (mapLookup secondVars n).isNone))
    onlyInSecond :=
      sortStrings ((mapKeys secondVars).filter (fun n => (mapLookup firstVars n).isNone))
    different :=
      sortDiffs ((mapKeys firstVars).filterMap (diffEntry firstVars secondVars))
    same :=
      sortStrings ((mapKeys firstVars).filter (sameTest firstVars secondVars)) }

/-- Swapping the two values of a DiffVar. -/
def swapDiff (d : DiffVar) : DiffVar := ⟨d.name, d.secondValue, d.firstValue⟩

/-- The strict by-name order on DiffVar (names are pairwise distinct in
every Different list, so sorting by name has a unique result). -/
def diffLT (a b : DiffVar) : Prop := a.name < b.name

instance : IsAntisymm DiffVar diffLT :=
  ⟨fun _ _ h₁ h₂ => absurd h₂ (lt_asymm h₁)⟩

/-! ### Specification-side predicates and concrete inputs -/

/-- The Overridden specification: at least two Observations of the chain
carry different non-empty values. -/
def hasTwoDistinctValues (chain : List Source) : Prop :=
  ∃ s ∈ chain, ∃ t ∈ chain, s.value ≠ "" ∧ t.value ≠ "" ∧ s.value ≠ t.value

instance (chain : List Source) : Decidable (hasTwoDistinctValues chain) := by
  unfold hasTwoDistinctValues
  infer_instance

/-- Two same-layer observations with different values, as produced by two
other-variant env files both defining the same key. -/
def obsX : Source := ⟨.envOther, "/p/.env.alpha", 1, "", "x", false⟩

/-- See obsX. -/
def obsY : Source := ⟨.envOther, "/p/.env.beta", 1, "", "y", false⟩

/-- A directory whose only artifact is a base .env file containing the
single line EMPTY_VAR= (an explicit assignment of the empty string). -/
def fsEmptyVar : FS := ⟨"/p", [⟨".env", "/p/.env", .env, .ok ["EMPTY_VAR="]⟩], []⟩

/-- Strict mode, no other options. -/
def strictOnly : Options := ⟨false, "", true, ""⟩

/-- A directory whose only artifact is a base .env file setting K=x. -/
def fsAmbient : FS := ⟨"/p", [⟨".env", "/p/.env", .env, .ok ["K=x"]⟩], []⟩

/-- Ambient-environment merge enabled, no other options. -/
def ambientOnly : Options := ⟨true, "", false, ""⟩

/-- A directory whose only artifact is a base .env file containing a bare
reference (REF=) and nothing else. -/
def fsStrictFail : FS := ⟨"/q", [⟨".env", "/q/.env", .env, .ok ["REF="]⟩], []⟩

/-- A three-layer chain with three distinct non-empty values a, b, c. -/
def chainABC : List Source :=
  [⟨.env, "/p/.env", 1, "", "a", false⟩,
   ⟨.envLocal, "/p/.env.local", 1, "", "b", false⟩,
   ⟨.envOther, "/p/.env.dev", 1, "", "c", false⟩]

/-! ## Helper lemmas -/

theorem dropWhile_self {α : Type _} (p : α → Bool) (l : List α) :
    (l.dropWhile p).dropWhile p = l.dropWhile p := by
  induction l with
  | nil => rfl
  | cons a t ih =>
    by_cases h : p a
    · simpa [List.dropWhile_cons, h] using ih
    · simp [List.dropWhile_cons, h]

theorem dropWhile_head_false {α : Type _} (p : α → Bool) (l : List α) {a : α} {t : List α}
    (h : l.dropWhile p = a :: t) : p a = false := by
  induction l with
  | nil => simp at h
  | cons b u ih =>
    by_cases hb : p b
    · rw [List.dropWhile_cons, if_pos hb] at h
      exact ih h
    · rw [List.dropWhile_cons, if_neg hb] at h
      injection h with h₁ h₂
      subst h₁
      simpa using hb

theorem trimChars_idem (l : List Char) : trimChars (trimChars l) = trimChars l := by
  unfold trimChars
  have hsuf : (l.dropWhile goIsSpace).reverse.dropWhile goIsSpace <:+
      (l.dropWhile goIsSpace).reverse := List.dropWhile_suffix _
  have hpre :
      ((l.dropWhile goIsSpace).reverse.dropWhile goIsSpace).reverse <+:
        l.dropWhile goIsSpace := by
    have h2 := List.reverse_prefix.mpr hsuf
    simpa using h2
  have hZfix :
      ((l.dropWhile goIsSpace).reverse.dropWhile goIsSpace).reverse.dropWhile goIsSpace =
        ((l.dropWhile goIsSpace).reverse.dropWhile goIsSpace).reverse := by
    obtain ⟨t, ht⟩ := hpre
    cases hzr : ((l.dropWhile goIsSpace).reverse.dropWhile goIsSpace).reverse with
    | nil => simp
    | cons z zs =>
      rw [hzr] at ht
      have hY : l.dropWhile goIsSpace = z :: (zs ++ t) := by
        rw [← ht]
        simp
      have hz : goIsSpace z = false := dropWhile_head_false goIsSpace l hY
      rw [List.dropWhile_cons, if_neg (by simp [hz])]
  rw [hZfix, List.reverse_reverse, dropWhile_self]

theorem sorted_rel_getLast? {α : Type _} {r : α → α → Prop} (hrefl : ∀ a, r a a) :
    ∀ (l : List α) (m : α), l.Sorted r → l.getLast? = some m → ∀ x ∈ l, r x m := by
  intro l
  induction l with
  | nil =>
    intro m _ hm
    simp at hm
  | cons a t ih =>
    intro m hs hm x hx
    cases t with
    | nil =>
      simp at hm
      subst hm
      simp at hx
      subst hx
      exact hrefl _
    | cons b u =>
      have hm' : (b :: u).getLast? = some m := by
        simpa [List.getLast?_cons_cons] using hm
      have hs' := List.sorted_cons.mp hs
      rcases List.mem_cons.mp hx with rfl | hx'
      · have hne : b :: u ≠ [] := List.cons_ne_nil _ _
        have hmem : m ∈ b :: u := by
          rw [List.getLast?_eq_getLast_of_ne_nil hne] at hm'
          have h2 : (b :: u).getLast hne = m := by injection hm'
          rw [← h2]
          exact List.getLast_mem hne
        exact hs'.1 m hmem
      · exact ih m hs'.2 hm' x hx'

theorem chainLE_refl (s : Source) : chainLE s s := Nat.le_refl _

theorem sortChain_perm (chain : List Source) : List.Perm (sortChain chain) chain :=
  List.perm_insertionSort _ _

theorem sortChain_sorted (chain : List Source) : (sortChain chain).Sorted chainLE :=
  List.sorted_insertionSort _ _

theorem finalizeVarWith_finalValue (name : String) (chain : List Source)
    (valOrder : List String) :
    (finalizeVarWith name chain valOrder).finalValue =
      (((sortChain chain).getLast?.map (fun s => s.value)).getD "") := rfl

/-- The computed final value is the value of a maximal-precedence
observation of the chain. -/
theorem finalValue_spec (name : String) (chain : List Source) (valOrder : List String)
    (h : chain ≠ []) :
    ∃ s ∈ chain, (finalizeVarWith name chain valOrder).finalValue = s.value ∧
      ∀ t ∈ chain, chainLE t s := by
  have hperm := sortChain_perm chain
  have hne : sortChain chain ≠ [] := by
    intro h0
    exact h (hperm.symm.trans (h0 ▸ List.Perm.refl _)).eq_nil
  have hm : (sortChain chain).getLast? = some ((sortChain chain).getLast hne) :=
    List.getLast?_eq_getLast_of_ne_nil hne
  refine ⟨(sortChain chain).getLast hne, ?_, ?_, ?_⟩
  · exact hperm.mem_iff.mp (List.getLast_mem hne)
  · rw [finalizeVarWith_finalValue, hm]
    rfl
  · intro t ht
    exact sorted_rel_getLast? chainLE_refl (sortChain chain) _
      (sortChain_sorted chain) hm t (hperm.mem_iff.mpr ht)

theorem mergeOSEnvVar_cons (p : String × String) (env : List (String × String))
    (v : Variable) :
    mergeOSEnvVar (p :: env) v =
      mergeOSEnvVar env
        (if p.1 = v.name then
          { v with
            chain := v.chain ++ [osSource p.2]
            finalValue := p.2
            finalFrom := osSource p.2
            overridden := true }
        else v) := rfl

theorem mergeOSEnvVar_name (env : List (String × String)) (v : Variable) :
    (mergeOSEnvVar env v).name = v.name := by
  induction env generalizing v with
  | nil => rfl
  | cons p env ih =>
    rw [mergeOSEnvVar_cons]
    by_cases h : p.1 = v.name
    · rw [if_pos h, ih]
    · rw [if_neg h, ih]

theorem mergeOSEnvVar_finalValue (env : List (String × String)) (v : Variable) :
    (mergeOSEnvVar env v).finalValue =
      (((env.filter (fun p => p.1 = v.name)).getLast?.map (fun p => p.2)).getD
        v.finalValue) := by
  induction env generalizing v with
  | nil => rfl
  | cons p env ih =>
    rw [mergeOSEnvVar_cons]
    by_cases h : p.1 = v.name
    · rw [if_pos h, ih]
      simp only [List.filter_cons, decide_eq_true_eq]
      rw [if_pos h]
      cases hf : env.filter (fun q => decide (q.1 = v.name)) with
      | nil => simp
      | cons x xs =>
        have hne : x :: xs ≠ [] := List.cons_ne_nil x xs
        rw [List.getLast?_cons_cons, List.getLast?_eq_getLast_of_ne_nil hne]
        simp
    · rw [if_neg h, ih]
      simp only [List.filter_cons, decide_eq_true_eq]
      rw [if_neg h]

theorem mergeOSEnvVar_overridden (env : List (String × String)) (v : Variable) :
    (mergeOSEnvVar env v).overridden =
      (v.overridden || env.any (fun p => p.1 == v.name)) := by
  induction env generalizing v with
  | nil => simp [mergeOSEnvVar]
  | cons p env ih =>
    rw [mergeOSEnvVar_cons]
    by_cases h : p.1 = v.name
    · rw [if_pos h, ih]
      have hb : (p.1 == v.name) = true := by simpa using h
      simp [hb]
    · rw [if_neg h, ih]
      have hb : (p.1 == v.name) = false := by simpa using h
      simp [hb]

theorem one_lt_dedup_length_iff {α : Type _} [DecidableEq α] (l : List α) :
    1 < l.dedup.length ↔ ∃ a ∈ l, ∃ b ∈ l, a ≠ b := by
  constructor
  · intro h
    rcases hd : l.dedup with _ | ⟨a, _ | ⟨b, t⟩⟩
    · rw [hd] at h
      simp at h
    · rw [hd] at h
      simp at h
    · have ha : a ∈ l := List.mem_dedup.mp (by rw [hd]; exact List.mem_cons_self _ _)
      have hb : b ∈ l := List.mem_dedup.mp
        (by rw [hd]; exact List.mem_cons_of_mem _ (List.mem_cons_self _ _))
      have hnd := List.nodup_dedup l
      rw [hd] at hnd
      have hab : a ≠ b := by
        intro he
        exact (List.nodup_cons.mp hnd).1 (he ▸ List.mem_cons_self b t)
      exact ⟨a, ha, b, hb, hab⟩
  · rintro ⟨a, ha, b, hb, hab⟩
    by_contra hle
    push_neg at hle
    rcases hd : l.dedup with _ | ⟨c, t⟩
    · rw [List.dedup_eq_nil] at hd
      subst hd
      simp at ha
    · have ht : t = [] := by
        rw [hd] at hle
        simpa using hle
      subst ht
      have ha' : a ∈ l.dedup := List.mem_dedup.mpr ha
      have hb' : b ∈ l.dedup := List.mem_dedup.mpr hb
      rw [hd] at ha' hb'
      simp at ha' hb'
      exact hab (ha'.trans hb'.symm)

theorem unquote_wrap (c : Char) (hc : c = '"' ∨ c = Char.ofNat 39) (x : List Char) :
    unquote (c :: x ++ [c]) = x := by
  unfold unquote
  rw [if_pos]
  · show ((c :: (x ++ [c])).drop 1).dropLast = x
    simp
  · refine ⟨?_, ?_⟩
    · simp
    · have hl : (c :: x ++ [c]).getLast? = some c := by
        rw [show (c :: x ++ [c]) = ((c :: x) ++ [c]) from rfl, List.getLast?_concat]
      rcases hc with rfl | rfl
      · exact Or.inl ⟨rfl, hl⟩
      · exact Or.inr ⟨rfl, hl⟩

theorem finalizeVar_eq (name : String) (chain : List Source) :
    finalizeVar name chain = finalizeVarWith name chain (distinctNonEmptyValues chain) := rfl

theorem finalizeVar_overridden (name : String) (chain : List Source) :
    (finalizeVar name chain).overridden =
      decide (1 < (distinctNonEmptyValues chain).length) := rfl

theorem finalizeVarWith_conflicts (name : String) (chain : List Source)
    (valOrder : List String) :
    (finalizeVarWith name chain valOrder).conflicts =
      (if 1 < valOrder.length then
        valOrder.filter
          (fun v => v ≠ (((sortChain chain).getLast?.map (fun s => s.value)).getD ""))
      else []) := rfl

/-! ## Claims -/

/-- Claim C5, counterexample: the claim says unquoting the mismatched-quote
value 'it'"s' leaves it unchanged; but its first and last characters are
both single quotes, so unquote strips the outer pair and the result differs
from the input. -/
theorem C5_unquote_cex : unquoteStr "'it'\"s'" ≠ "'it'\"s'" := by decide

/-- Claim C5 (amended): unquote returns its input unchanged unless the input
is at least two characters long and its first and last characters are the
same quote character, in which case it strips exactly that one outer pair
(unquoting a wrapped value yields the wrapped text); the mismatched-interior
value 'it'"s' has matching single quotes at both ends and is therefore
stripped to it'"s, not left unchanged. -/
theorem C5_unquote_amended :
    (∀ l : List Char,
        ¬(2 ≤ l.length ∧
            ((l.head? = some '"' ∧ l.getLast? = some '"') ∨
             (l.head? = some (Char.ofNat 39) ∧ l.getLast? = some (Char.ofNat 39)))) →
        unquote l = l) ∧
    (∀ x : List Char,
        unquote ('"' :: x ++ ['"']) = x ∧
        unquote (Char.ofNat 39 :: x ++ [Char.ofNat 39]) = x) ∧
    unquoteStr "'it'\"s'" = "it'\"s" := by
  refine ⟨?_, ?_, by decide⟩
  · intro l h
    unfold unquote
    rw [if_neg h]
  · intro x
    exact ⟨unquote_wrap '"' (Or.inl rfl) x, unquote_wrap (Char.ofNat 39) (Or.inr rfl) x⟩

/-- Witness for C5: the first part applied to the unwrapped value x" (first
character not a quote), evaluated concretely. -/
theorem C5_unquote_amended_witness : unquote "x\"".data = "x\"".data :=
  C5_unquote_amended.1 "x\"".data (by decide)

/-- Claim C2, counterexample: a base file whose only line is EMPTY_VAR= (an
explicit assignment of the empty string, with nothing else referencing the
name) IS listed as undefined under strict mode, and the strict resolve call
fails on it — the code cannot distinguish an explicit empty assignment from
a bare reference, both store the empty value. -/
theorem C2_undefined_cex :
    (resolveWithOptions fsEmptyVar [] strictOnly).1.undefined = ["EMPTY_VAR"] ∧
    (resolveWithOptions fsEmptyVar [] strictOnly).2 =
      some "strict mode: 1 undefined variable(s): EMPTY_VAR" :=
  ⟨rfl, rfl⟩

/-- Claim C2 (amended): under strict mode a variable is listed as undefined
iff every observation in its chain carries the empty value; a variable
explicitly assigned the empty string has an empty-valued observation like a
bare reference does, so it is listed as well. -/
theorem C2_undefined_amended (name : String) (chain : List Source) (h : chain ≠ []) :
    isUndefinedVar (finalizeVar name chain) = true ↔ ∀ s ∈ chain, s.value = "" := by
  unfold isUndefinedVar
  rw [decide_eq_true_eq]
  constructor
  · rintro ⟨_, hall⟩ s hs
    exact hall s ((sortChain_perm chain).mem_iff.mpr hs)
  · intro hall
    constructor
    · obtain ⟨s, hs, hval, _⟩ := finalValue_spec name chain (distinctNonEmptyValues chain) h
      rw [finalizeVar_eq, hval]
      exact hall s hs
    · intro s hs
      exact hall s ((sortChain_perm chain).mem_iff.mp hs)

/-- Witness for C2: the amended claim applied to the one-observation chain
of an explicit EMPTY_VAR= assignment. -/
theorem C2_undefined_amended_witness :
    isUndefinedVar (finalizeVar "EMPTY_VAR" [⟨.env, "/p/.env", 1, "", "", false⟩]) = true :=
  (C2_undefined_amended "EMPTY_VAR" [⟨.env, "/p/.env", 1, "", "", false⟩]
    (by decide)).mpr (by decide)

/-- Claim C6, counterexample: with the ambient merge enabled, ambient pair
K=x and a single file observation K=x, the merged variable reports
Overridden true although no two of its observations carry different
non-empty values, so the claimed biconditional fails after the
ambient-environment pass. -/
theorem C6_overridden_cex :
    (resolveWithOptions fsAmbient [("K", "x")] ambientOnly).1.vars.map
        (fun v => (v.overridden, decide (hasTwoDistinctValues v.chain))) =
      [(true, false)] := by
  decide

/-- Claim C6 (amended): after the main resolution pass, Overridden is true
iff at least two observations of the chain carry different non-empty values
(an empty-valued observation never contributes); the ambient-environment
merge, however, sets Overridden unconditionally on every variable it merges
into, even when no two distinct non-empty values exist. -/
theorem C6_overridden_amended :
    (∀ name chain,
        (finalizeVar name chain).overridden = true ↔ hasTwoDistinctValues chain) ∧
    (∀ env (v : Variable), (∃ p ∈ env, p.1 = v.name) →
        (mergeOSEnvVar env v).overridden = true) := by
  constructor
  · intro name chain
    rw [finalizeVar_overridden, decide_eq_true_eq, distinctNonEmptyValues,
      one_lt_dedup_length_iff]
    constructor
    · rintro ⟨a, ha, b, hb, hab⟩
      rw [List.mem_filter] at ha hb
      obtain ⟨s, hs, hsa⟩ := List.mem_map.mp ha.1
      obtain ⟨t, ht, htb⟩ := List.mem_map.mp hb.1
      refine ⟨s, hs, t, ht, ?_, ?_, ?_⟩
      · rw [hsa]
        exact of_decide_eq_true ha.2
      · rw [htb]
        exact of_decide_eq_true hb.2
      · rw [hsa, htb]
        exact hab
    · rintro ⟨s, hs, t, ht, hsne, htne, hst⟩
      refine ⟨s.value, ?_, t.value, ?_, hst⟩
      · rw [List.mem_filter]
        exact ⟨List.mem_map.mpr ⟨s, hs, rfl⟩, by simpa using hsne⟩
      · rw [List.mem_filter]
        exact ⟨List.mem_map.mpr ⟨t, ht, rfl⟩, by simpa using htne⟩
  · rintro env v ⟨p, hp, hpe⟩
    rw [mergeOSEnvVar_overridden]
    have hany : env.any (fun q => q.1 == v.name) = true := by
      rw [List.any_eq_true]
      exact ⟨p, hp, by simpa using hpe⟩
    simp [hany]

/-- Witness for C6: the ambient part applied to a one-pair environment
matching a variable with a single equal-valued observation. -/
theorem C6_overridden_amended_witness :
    (mergeOSEnvVar [("K", "x")]
        ⟨"K", "x", ⟨.env, "/p/.env", 1, "", "x", false⟩, [], false, []⟩).overridden =
      true :=
  C6_overridden_amended.2 [("K", "x")]
    ⟨"K", "x", ⟨.env, "/p/.env", 1, "", "x", false⟩, [], false, []⟩
    ⟨("K", "x"), by decide, rfl⟩

/-- Claim C8, counterexample: both listed orders are valid enumerations of
the distinct-value map of chainABC (Go enumerates that hash map in a
randomized order on every run), yet they produce different Conflicts lists,
so two runs over the same unchanged directory need not produce equal
Resolutions. -/
theorem C8_conflicts_order_cex :
    List.Perm ["a", "b", "c"] (distinctNonEmptyValues chainABC) ∧
    List.Perm ["b", "a", "c"] (distinctNonEmptyValues chainABC) ∧
    (finalizeVarWith "K" chainABC ["a", "b", "c"]).conflicts = ["a", "b"] ∧
    (finalizeVarWith "K" chainABC ["b", "a", "c"]).conflicts = ["b", "a"] ∧
    (finalizeVarWith "K" chainABC ["a", "b", "c"]).conflicts ≠
      (finalizeVarWith "K" chainABC ["b", "a", "c"]).conflicts :=
  ⟨by decide, by decide, rfl, rfl, by decide⟩

/-- Claim C8 (amended): two runs over the same inputs agree on the name,
chain, final value, winning source and Overridden flag of every variable;
their Conflicts lists hold the same values but only up to permutation,
because the list enumerates a hash map whose iteration order is randomized
per run (the valOrder parameter). -/
theorem C8_determinism_amended (name : String) (chain : List Source)
    (o₁ o₂ : List String)
    (h₁ : List.Perm o₁ (distinctNonEmptyValues chain))
    (h₂ : List.Perm o₂ (distinctNonEmptyValues chain)) :
    (finalizeVarWith name chain o₁).name = (finalizeVarWith name chain o₂).name ∧
    (finalizeVarWith name chain o₁).chain = (finalizeVarWith name chain o₂).chain ∧
    (finalizeVarWith name chain o₁).finalValue =
      (finalizeVarWith name chain o₂).finalValue ∧
    (finalizeVarWith name chain o₁).finalFrom =
      (finalizeVarWith name chain o₂).finalFrom ∧
    (finalizeVarWith name chain o₁).overridden =
      (finalizeVarWith name chain o₂).overridden ∧
    List.Perm (finalizeVarWith name chain o₁).conflicts
      (finalizeVarWith name chain o₂).conflicts := by
  have hp : List.Perm o₁ o₂ := h₁.trans h₂.symm
  have hlen : o₁.length = o₂.length := hp.length_eq
  refine ⟨rfl, rfl, rfl, rfl, ?_, ?_⟩
  · show decide (1 < o₁.length) = decide (1 < o₂.length)
    rw [hlen]
  · rw [finalizeVarWith_conflicts, finalizeVarWith_conflicts]
    by_cases h : 1 < o₁.length
    · rw [if_pos h, if_pos (hlen ▸ h)]
      exact hp.filter _
    · rw [if_neg h, if_neg (hlen ▸ h)]

/-- Witness for C8: the amended claim applied to chainABC and the two
concrete enumeration orders. -/
theorem C8_determinism_amended_witness :
    List.Perm (finalizeVarWith "K" chainABC ["a", "b", "c"]).conflicts
      (finalizeVarWith "K" chainABC ["b", "a", "c"]).conflicts :=
  (C8_determinism_amended "K" chainABC ["a", "b", "c"] ["b", "a", "c"]
    (by decide) (by decide)).2.2.2.2.2

/-- Claim C1, counterexample: two observations on the same maximal layer
(two other-variant files defining the same key with different values) make
the resolved final value depend on the ingestion order, so the final value
is not determined by the maximal-precedence layer alone. -/
theorem C1_final_value_cex :
    ((buildResolution ⟨"/p", [], []⟩ [("K", obsX), ("K", obsY)] []).vars.map
        (fun v => v.finalValue) = ["y"]) ∧
    ((buildResolution ⟨"/p", [], []⟩ [("K", obsY), ("K", obsX)] []).vars.map
        (fun v => v.finalValue) = ["x"]) :=
  ⟨rfl, rfl⟩

/-- Claim C1 (amended): the computed final value is always the value of an
observation whose layer precedence is maximal in the chain; whenever every
maximal-precedence observation of the chain carries the same value v (in
particular when exactly one observation has the maximal layer) the final
value is v regardless of ingestion order; equal-precedence ties with
different values are broken by ingestion order; and when the ambient merge
is enabled, the ambient value always becomes the final value of a tracked
variable. -/
theorem C1_final_value_amended :
    (∀ name chain valOrder, chain ≠ [] →
        ∃ s ∈ chain, (finalizeVarWith name chain valOrder).finalValue = s.value ∧
          ∀ t ∈ chain, chainLE t s) ∧
    (∀ name chain valOrder v, chain ≠ [] →
        (∀ s ∈ chain, (∀ t ∈ chain, chainLE t s) → s.value = v) →
        (finalizeVarWith name chain valOrder).finalValue = v) ∧
    (∀ env k val (v : Variable), v.name = k →
        env.filter (fun p => p.1 = k) = [(k, val)] →
        (mergeOSEnvVar env v).finalValue = val) := by
  refine ⟨fun name chain valOrder h => finalValue_spec name chain valOrder h, ?_, ?_⟩
  · intro name chain valOrder v h hmax
    obtain ⟨s, hs, hval, hle⟩ := finalValue_spec name chain valOrder h
    rw [hval]
    exact hmax s hs hle
  · intro env k val v hk hf
    subst hk
    rw [mergeOSEnvVar_finalValue, hf]
    rfl

/-- Witness for C1: the three parts applied to the concrete chainABC (whose
maximal-precedence observation uniquely carries c) and to a concrete
one-pair ambient environment. -/
theorem C1_final_value_amended_witness :
    (∃ s ∈ chainABC,
        (finalizeVarWith "K" chainABC ["a", "b", "c"]).finalValue = s.value ∧
          ∀ t ∈ chainABC, chainLE t s) ∧
    (finalizeVarWith "K" chainABC ["a", "b", "c"]).finalValue = "c" ∧
    (mergeOSEnvVar [("K", "amb")] ⟨"K", "x", default, [], false, []⟩).finalValue =
      "amb" :=
  ⟨C1_final_value_amended.1 "K" chainABC ["a", "b", "c"] (by decide),
   C1_final_value_amended.2.1 "K" chainABC ["a", "b", "c"] "c" (by decide) (by decide),
   C1_final_value_amended.2.2 [("K", "amb")] "K" "amb" ⟨"K", "x", default, [], false, []⟩
     rfl (by decide)⟩

/-- Claim C10: the service filter rewrites only the Variables slice — the
ByName index and every other field are unchanged, so every name present
before the filter is still retrievable from ByName — and the
undefined-variable detection that runs afterwards operates on the filtered
Variables slice: exactly the variables that pass the service filter and
satisfy the undefined test are listed, whatever ByName still holds. -/
theorem C10_filter_frame (r : Resolution) (serviceName : String) :
    (filterToService serviceName r).byName = r.byName ∧
    (filterToService serviceName r).path = r.path ∧
    (filterToService serviceName r).warnings = r.warnings ∧
    (filterToService serviceName r).undefined = r.undefined ∧
    (filterToService serviceName r).vars = r.vars.filter (usedByService serviceName) ∧
    (findUndefinedVars (filterToService serviceName r)).byName = r.byName ∧
    (findUndefinedVars (filterToService serviceName r)).undefined =
      r.undefined ++
        ((r.vars.filter (fun v => isUndefinedVar v && usedByService serviceName v)).map
          (fun v => v.name)) := by
  refine ⟨rfl, rfl, rfl, rfl, rfl, rfl, ?_⟩
  show r.undefined ++
      (((r.vars.filter (usedByService serviceName)).filter isUndefinedVar).map
        (fun v => v.name)) = _
  rw [List.filter_filter]

/-! ### Claim C7 helper lemmas -/

theorem preStrict_warnings (fs : FS) (osEnv : List (String × String)) (opts : Options) :
    (preStrict fs osEnv opts).warnings =
      fs.envArtifacts.filterMap envArtifactWarn ++
        fs.composeArtifacts.filterMap composeArtifactWarn := by
  simp only [preStrict]
  split
  · split <;> rfl
  · split <;> rfl

theorem preStrict_undefined (fs : FS) (osEnv : List (String × String)) (opts : Options) :
    (preStrict fs osEnv opts).undefined = [] := by
  simp only [preStrict]
  split
  · split <;> rfl
  · split <;> rfl

theorem preStrict_empty_vars (path : String) (osEnv : List (String × String))
    (opts : Options) : (preStrict ⟨path, [], []⟩ osEnv opts).vars = [] := by
  simp only [preStrict]
  split
  · split <;> rfl
  · split <;> rfl

/-- Claim C7: the resolve call returns an error iff strict mode is enabled
and the undefined list of the Resolution it returns is non-empty; in that
case the error message carries the count and the full comma-separated list
of the undefined names of that returned (partially built) Resolution;
per-artifact failures surface only as the warning strings collected during
ingestion, never as an error; and an empty or nonexistent base directory
(no discovered artifacts) yields a successful empty Resolution. -/
theorem C7_error_contract :
    (∀ fs osEnv opts,
        ((resolveWithOptions fs osEnv opts).2 ≠ none ↔
          opts.strictMode = true ∧
            (resolveWithOptions fs osEnv opts).1.undefined ≠ []) ∧
        (∀ e, (resolveWithOptions fs osEnv opts).2 = some e →
          e = strictErrMsg (resolveWithOptions fs osEnv opts).1.undefined) ∧
        (resolveWithOptions fs osEnv opts).1.warnings =
          fs.envArtifacts.filterMap envArtifactWarn ++
            fs.composeArtifacts.filterMap composeArtifactWarn) ∧
    (∀ path osEnv opts,
        (resolveWithOptions ⟨path, [], []⟩ osEnv opts).1.vars = [] ∧
        (resolveWithOptions ⟨path, [], []⟩ osEnv opts).1.undefined = [] ∧
        (resolveWithOptions ⟨path, [], []⟩ osEnv opts).2 = none) := by
  have hmain : ∀ fs osEnv opts,
      resolveWithOptions fs osEnv opts =
        (if opts.strictMode then
          if h : (findUndefinedVars (preStrict fs osEnv opts)).undefined ≠ [] then
            (findUndefinedVars (preStrict fs osEnv opts),
              some (strictErrMsg (findUndefinedVars (preStrict fs osEnv opts)).undefined))
          else (findUndefinedVars (preStrict fs osEnv opts), none)
        else (preStrict fs osEnv opts, none)) := by
    intro fs osEnv opts
    simp only [resolveWithOptions]
    split
    · split
      · rfl
      · rfl
    · rfl
  constructor
  · intro fs osEnv opts
    rw [hmain]
    by_cases hsm : opts.strictMode = true
    · rw [if_pos hsm]
      by_cases hu : (findUndefinedVars (preStrict fs osEnv opts)).undefined ≠ []
      · rw [dif_pos hu]
        refine ⟨?_, ?_, ?_⟩
        · simp [hsm, hu]
        · intro e he
          simpa using he.symm
        · show (preStrict fs osEnv opts).warnings = _
          exact preStrict_warnings fs osEnv opts
      · rw [dif_neg hu]
        refine ⟨?_, ?_, ?_⟩
        · simp only [ne_eq, not_not] at hu
          simp [hu]
        · intro e he
          simp at he
        · show (preStrict fs osEnv opts).warnings = _
          exact preStrict_warnings fs osEnv opts
    · rw [if_neg hsm]
      refine ⟨?_, ?_, preStrict_warnings fs osEnv opts⟩
      · simp [hsm]
      · intro e he
        simp at he
  · intro path osEnv opts
    have hund : (findUndefinedVars (preStrict ⟨path, [], []⟩ osEnv opts)).undefined = [] := by
      show (preStrict ⟨path, [], []⟩ osEnv opts).undefined ++ _ = []
      rw [preStrict_undefined, preStrict_empty_vars]
      rfl
    rw [hmain]
    by_cases hsm : opts.strictMode = true
    · rw [if_pos hsm]
      rw [dif_neg (by simpa using hund)]
      refine ⟨?_, hund, rfl⟩
      show (preStrict ⟨path, [], []⟩ osEnv opts).vars = []
      exact preStrict_empty_vars path osEnv opts
    · rw [if_neg hsm]
      exact ⟨preStrict_empty_vars path osEnv opts, preStrict_undefined _ _ _, rfl⟩

/-- Witness for C7: the error-message part applied to the concrete
one-bare-reference directory under strict mode. -/
theorem C7_error_contract_witness :
    "strict mode: 1 undefined variable(s): REF" =
      strictErrMsg (resolveWithOptions fsStrictFail [] strictOnly).1.undefined :=
  (C7_error_contract.1 fsStrictFail [] strictOnly).2.1
    "strict mode: 1 undefined variable(s): REF" rfl

/-! ### Claim C3 helper lemma -/

/-- One line of a referenced env file parses like the plain env-file
algorithm (up to the layer and service tags) exactly when the trimmed line
carries no export prefix and its key does not trim to empty. -/
theorem parseRefLine_eq (L : Layer) (path svc : String) (n : Nat) (raw : String)
    (hexp : "export ".data.isPrefixOf (trimChars raw.data) = false)
    (hkey : (splitEqChars (trimChars raw.data)).map (fun p => trimChars p.1) ≠ some []) :
    parseRefLine path svc n raw =
      (parseEnvLine L path n raw).map
        (fun p => (p.1, { p.2 with layer := Layer.composeEnvFile, service := svc })) := by
  simp only [parseRefLine, parseEnvLine]
  by_cases hb : trimChars raw.data = [] ∨ (trimChars raw.data).head? = some '#'
  · rw [if_pos hb, if_pos hb]
    rfl
  · rw [if_neg hb, if_neg hb]
    have hstrip : stripExport (trimChars raw.data) = trimChars raw.data := by
      unfold stripExport
      rw [if_neg (by simp [hexp])]
    rw [hstrip, trimChars_idem]
    cases hsp : splitEqChars (trimChars raw.data) with
    | none => rfl
    | some kv =>
      rw [hsp] at hkey
      obtain ⟨k, v⟩ := kv
      have hk : trimChars k ≠ [] := by
        intro h
        exact hkey (by simp [h])
      simp [hk]

/-- Claim C3, counterexample: on the line export FOO=bar the plain env-file
parser strips the export prefix and emits key FOO, while the env_file
reference parser does not and emits key export FOO — the two parses differ
in more than the layer tag and service name. -/
theorem C3_ref_parse_cex :
    (parseRefFile "/p/svc.env" "api" ["export FOO=bar"]).map (fun p => p.1) =
      ["export FOO"] ∧
    (parseEnvFile .composeEnvFile "/p/svc.env" ["export FOO=bar"]).map (fun p => p.1) =
      ["FOO"] :=
  ⟨rfl, rfl⟩

/-- Claim C3 (amended): for every referenced env file none of whose trimmed
lines begins with the export token and none of whose keys trims to the
empty string, the env_file reference parser produces exactly the
observations of the plain env-file algorithm, differing only in the layer
tag (compose env_file) and the attached service name; on lines with an
export prefix (which the reference parser does not strip) or an empty key
(which it does not skip) the two parsers disagree. -/
theorem C3_ref_parse_amended (L : Layer) (path svc : String) (lines : List String)
    (hexp : ∀ raw ∈ lines, "export ".data.isPrefixOf (trimChars raw.data) = false)
    (hkey : ∀ raw ∈ lines,
      (splitEqChars (trimChars raw.data)).map (fun p => trimChars p.1) ≠ some []) :
    parseRefFile path svc lines =
      (parseEnvFile L path lines).map
        (fun p => (p.1, { p.2 with layer := Layer.composeEnvFile, service := svc })) := by
  unfold parseRefFile parseEnvFile
  rw [List.map_filterMap]
  apply List.filterMap_congr
  intro a ha
  have hmem : a.2 ∈ lines := by
    obtain ⟨i, x⟩ := a
    obtain ⟨h1, h2, h3⟩ := List.mem_enumFrom ha
    exact h3 ▸ List.getElem_mem _
  exact parseRefLine_eq L path svc a.1 a.2 (hexp a.2 hmem) (hkey a.2 hmem)

/-- Witness for C3: the amended claim applied to a concrete two-line file
with no export prefix and no empty key. -/
theorem C3_ref_parse_amended_witness :
    parseRefFile "/p/x.env" "api" ["A=1", "# note"] =
      (parseEnvFile .env "/p/x.env" ["A=1", "# note"]).map
        (fun p => (p.1, { p.2 with layer := Layer.composeEnvFile, service := "api" })) :=
  C3_ref_parse_amended .env "/p/x.env" "api" ["A=1", "# note"]
    (by decide) (by decide)

/-! ### Claim C9 helper lemmas -/

theorem sortDiffs_perm (l : List DiffVar) : List.Perm (sortDiffs l) l :=
  List.perm_insertionSort _ _

theorem sortDiffs_sorted (l : List DiffVar) : (sortDiffs l).Sorted diffLE :=
  List.sorted_insertionSort _ _

theorem sortStrings_sorted (l : List String) :
    (sortStrings l).Sorted (fun a b => a ≤ b) :=
  List.sorted_insertionSort _ _

theorem mapKeys_nodup (m : List (String × String)) : (mapKeys m).Nodup :=
  List.nodup_dedup _

theorem orderedInsert_map_swap (a : DiffVar) (l : List DiffVar) :
    List.orderedInsert diffLE (swapDiff a) (l.map swapDiff) =
      (List.orderedInsert diffLE a l).map swapDiff := by
  induction l with
  | nil => rfl
  | cons b t ih =>
    simp only [List.map_cons, List.orderedInsert]
    by_cases h : diffLE a b
    · rw [if_pos h, if_pos (show diffLE (swapDiff a) (swapDiff b) from h)]
      simp
    · rw [if_neg h, if_neg (show ¬diffLE (swapDiff a) (swapDiff b) from h), ih]
      simp

theorem sortDiffs_map_swap (l : List DiffVar) :
    sortDiffs (l.map swapDiff) = (sortDiffs l).map swapDiff := by
  induction l with
  | nil => rfl
  | cons a t ih =>
    simp only [List.map_cons]
    show List.orderedInsert diffLE (swapDiff a) (sortDiffs (t.map swapDiff)) = _
    rw [ih, orderedInsert_map_swap]
    rfl

theorem mem_mapKeys (m : List (String × String)) (n : String) :
    n ∈ mapKeys m ↔ (mapLookup m n).isSome := by
  unfold mapKeys mapLookup
  rw [List.mem_dedup]
  have hiso : ∀ (o : Option (String × String)) (f : String × String → String),
      (o.map f).isSome = o.isSome := by
    intro o f
    cases o <;> rfl
  rw [hiso, List.find?_isSome]
  constructor
  · intro h
    obtain ⟨p, hp, hpn⟩ := List.mem_map.mp h
    exact ⟨p, List.mem_reverse.mpr hp, by simpa using hpn⟩
  · rintro ⟨p, hp, hpn⟩
    exact List.mem_map.mpr ⟨p, List.mem_reverse.mp hp, by simpa using hpn⟩

theorem diffEntry_some {f s : List (String × String)} {n : String} {d : DiffVar}
    (h : diffEntry f s n = some d) :
    d.name = n ∧ (mapLookup f n).isSome ∧ (mapLookup s n).isSome := by
  unfold diffEntry at h
  cases hf : mapLookup f n with
  | none =>
    rw [hf] at h
    simp at h
  | some v1 =>
    cases hs : mapLookup s n with
    | none =>
      rw [hf, hs] at h
      simp at h
    | some v2 =>
      rw [hf, hs] at h
      by_cases hne : v1 = v2
      · simp [hne] at h
      · simp only [ne_eq, hne, not_false_iff, if_true] at h
        refine ⟨?_, rfl, rfl⟩
        injection h with h'
        rw [← h']

theorem diffEntry_swap (f s : List (String × String)) (n : String) :
    (diffEntry f s n).map swapDiff = diffEntry s f n := by
  unfold diffEntry
  cases hf : mapLookup f n with
  | none => cases hs : mapLookup s n <;> simp
  | some v1 =>
    cases hs : mapLookup s n with
    | none => simp
    | some v2 =>
      by_cases hne : v1 = v2
      · simp [hne]
      · have hne' : ¬v2 = v1 := fun h => hne h.symm
        simp [hne, hne', swapDiff]

theorem map_name_filterMap (g : String → Option DiffVar) (l : List String)
    (hg : ∀ n d, g n = some d → d.name = n) :
    (l.filterMap g).map (fun d => d.name) = l.filter (fun n => (g n).isSome) := by
  induction l with
  | nil => rfl
  | cons a t ih =>
    rw [List.filterMap_cons, List.filter_cons]
    cases hga : g a with
    | none => simp [hga, ih]
    | some d => simp [hga, ih, hg a d hga]

theorem nodup_filterMap_diffEntry (f s : List (String × String)) (keys : List String)
    (hnd : keys.Nodup) : (keys.filterMap (diffEntry f s)).Nodup := by
  have hmap := map_name_filterMap (diffEntry f s) keys (fun n d h => (diffEntry_some h).1)
  have hmn : ((keys.filterMap (diffEntry f s)).map (fun d => d.name)).Nodup := by
    rw [hmap]
    exact hnd.filter _
  exact hmn.of_map

theorem mem_filterMap_diffEntry_left (f s : List (String × String)) (d : DiffVar) :
    d ∈ (mapKeys f).filterMap (diffEntry f s) ↔ diffEntry f s d.name = some d := by
  rw [List.mem_filterMap]
  constructor
  · rintro ⟨n, _, hd⟩
    rw [(diffEntry_some hd).1]
    exact hd
  · intro h
    exact ⟨d.name, (mem_mapKeys f d.name).mpr (diffEntry_some h).2.1, h⟩

theorem mem_filterMap_diffEntry_right (f s : List (String × String)) (d : DiffVar) :
    d ∈ (mapKeys s).filterMap (diffEntry f s) ↔ diffEntry f s d.name = some d := by
  rw [List.mem_filterMap]
  constructor
  · rintro ⟨n, _, hd⟩
    rw [(diffEntry_some hd).1]
    exact hd
  · intro h
    exact ⟨d.name, (mem_mapKeys s d.name).mpr (diffEntry_some h).2.2, h⟩

theorem sortDiffs_eq_of_perm {l₁ l₂ : List DiffVar}
    (hperm : List.Perm l₁ l₂) (hn : (l₁.map (fun d => d.name)).Nodup) :
    sortDiffs l₁ = sortDiffs l₂ := by
  have hp : List.Perm (sortDiffs l₁) (sortDiffs l₂) :=
    (sortDiffs_perm l₁).trans (hperm.trans (sortDiffs_perm l₂).symm)
  have hn₁ : ((sortDiffs l₁).map (fun d => d.name)).Nodup :=
    (List.Perm.nodup_iff ((sortDiffs_perm l₁).map _)).mpr hn
  have hn₂ : ((sortDiffs l₂).map (fun d => d.name)).Nodup :=
    (List.Perm.nodup_iff (((sortDiffs_perm l₂).map _).trans (hperm.symm.map _))).mpr hn
  have hs₁ : (sortDiffs l₁).Pairwise diffLT :=
    (sortDiffs_sorted l₁).imp₂ (fun _ _ hab hne => lt_of_le_of_ne hab hne)
      (List.pairwise_map.mp hn₁)
  have hs₂ : (sortDiffs l₂).Pairwise diffLT :=
    (sortDiffs_sorted l₂).imp₂ (fun _ _ hab hne => lt_of_le_of_ne hab hne)
      (List.pairwise_map.mp hn₂)
  exact List.eq_of_perm_of_sorted hp hs₁ hs₂

theorem different_symm (fA fB : List (String × String)) :
    sortDiffs ((mapKeys fB).filterMap (diffEntry fB fA)) =
      (sortDiffs ((mapKeys fA).filterMap (diffEntry fA fB))).map swapDiff := by
  rw [← sortDiffs_map_swap, List.map_filterMap,
    List.filterMap_congr (fun n _ => diffEntry_swap fA fB n)]
  apply sortDiffs_eq_of_perm
  · rw [List.perm_ext_iff_of_nodup
      (nodup_filterMap_diffEntry fB fA (mapKeys fB) (mapKeys_nodup fB))
      (nodup_filterMap_diffEntry fB fA (mapKeys fA) (mapKeys_nodup fA))]
    intro d
    rw [mem_filterMap_diffEntry_left, mem_filterMap_diffEntry_right]
  · rw [map_name_filterMap (diffEntry fB fA) (mapKeys fB)
      (fun n d h => (diffEntry_some h).1)]
    exact (mapKeys_nodup fB).filter _

/-- Claim C9: Compare is symmetric under swapping its arguments — the
only-in lists exchange, each pair of the different list reappears with its
two values swapped — and all four result lists are sorted by name. -/
theorem C9_compare_symmetry (A B : Resolution) :
    (Compare A B).onlyInFirst = (Compare B A).onlyInSecond ∧
    (Compare A B).onlyInSecond = (Compare B A).onlyInFirst ∧
    (Compare B A).different = (Compare A B).different.map swapDiff ∧
    (Compare A B).onlyInFirst.Sorted (fun a b => a ≤ b) ∧
    (Compare A B).onlyInSecond.Sorted (fun a b => a ≤ b) ∧
    (Compare A B).different.Sorted diffLE ∧
    (Compare A B).same.Sorted (fun a b => a ≤ b) :=
  ⟨rfl, rfl, different_symm (finalMap A.vars) (finalMap B.vars),
    sortStrings_sorted _, sortStrings_sorted _, sortDiffs_sorted _,
    sortStrings_sorted _⟩

end EnvMerge
